import Mathlib

/-!
Verification development for the AI-tools-analysis survey dashboard
(`Analysis_tool.py`).  The Python source is shallowly embedded below:
strings are Lean `String`s, pandas columns are lists, missing cells are
`Option.none`, and every Python helper that the specification talks about
(`standardize_columns`, `plot_usage_frequency`, `plot_tool_popularity`,
`analyze_suggestions`) is translated into an executable Lean definition.
-/

/-! ## Python string primitives -/

/-- Python whitespace for `str.strip()`: space, tab, newline, carriage
return, vertical tab, form feed. -/
def pyWS (c : Char) : Bool :=
  c = ' ' || c = '\t' || c = '\n' || c = '\r' || c = Char.ofNat 11 || c = Char.ofNat 12

/-- `str.lower()` (ASCII model). -/
def pyLower (s : String) : String := String.mk (s.data.map Char.toLower)

/-- `str.strip()` on a char list: drop whitespace from both ends. -/
def pyStripChars (l : List Char) : List Char :=
  ((l.dropWhile pyWS).reverse.dropWhile pyWS).reverse

/-- `str.strip()`. -/
def pyStrip (s : String) : String := String.mk (pyStripChars s.data)

/-- The character map underlying `str.replace(' ', '_')`. -/
def spaceToUnderscore (c : Char) : Char := if c = ' ' then '_' else c

/-- `str.replace(' ', '_')`. -/
def pyReplaceSpace (s : String) : String := String.mk (s.data.map spaceToUnderscore)

/-- The header/alias normalization used by `standardize_columns`:
`str(col).lower().strip().replace(' ', '_')`. -/
def normCol (s : String) : String := pyReplaceSpace (pyStrip (pyLower s))

/-! ## Decimal rendering of the duplicate counter (`f"{std_col}_{counter}"`) -/

/-- The decimal digit character for `n < 10`. -/
def decDigitChar (n : Nat) : Char := Char.ofNat (48 + n)

/-- Decimal digits, most significant first; `fuel ≥ n` always suffices. -/
def decDigitsAux : Nat → Nat → List Char
  | 0, n => [decDigitChar n]
  | fuel + 1, n =>
      if n < 10 then [decDigitChar n]
      else decDigitsAux fuel (n / 10) ++ [decDigitChar (n % 10)]

/-- Decimal digits of `n`, most significant first. -/
def decDigits (n : Nat) : List Char := decDigitsAux n n

/-- Decimal rendering of `n` as a string. -/
def decStr (n : Nat) : String := String.mk (decDigits n)

/-- Parse a decimal digit string back to a number (proof device used to
show that decimal rendering is injective). -/
def decVal (l : List Char) : Nat := l.foldl (fun a c => 10 * a + (c.toNat - 48)) 0

/-- The Python f-string `f"{base}_{c}"`. -/
def suffixed (base : String) (c : Nat) : String := base ++ "_" ++ decStr c

/-! ## The alias table (`COLUMN_MAPPING`) -/

/-- `COLUMN_MAPPING` from the source, as an ordered association list
(canonical field name, alias variations), in declaration order. -/
def COLUMN_MAPPING : List (String × List String) := [
  ("analysis_timestamp", ["timestamp", "date", "time", "datetime", "time stamp"]),
  ("analysis_department", ["department", "dept", "division", "team", "group"]),
  ("analysis_job_role", ["job_role", "role", "position", "job", "job role", "title"]),
  ("analysis_ai_tool",
    ["ai_tool_used", "ai tool", "tool", "ai", "ai tool used", "which ai", "ai system"]),
  ("analysis_usage",
    ["usage_frequency", "frequency", "usage", "how often", "usage frequency",
     "how frequently"]),
  ("analysis_purpose", ["purpose", "use case", "application", "used for", "primary use"]),
  ("analysis_ease", ["ease_of_use", "ease", "usability", "ease of use", "user friendly"]),
  ("analysis_efficiency",
    ["time_saved", "time", "efficiency", "time save", "time saving", "productivity"]),
  ("analysis_feedback",
    ["improvement_suggestion", "suggestions", "feedback", "comments", "recommendations"]),
  ("analysis_suggestion_category", ["suggestion_category", "feedback type", "category"])
]

/-- The `(normalized variation, canonical name)` insertions performed, in
order, while building a `variation_map`-style Python dict from an alias
table. -/
def tblPairs (tbl : List (String × List String)) : List (String × String) :=
  tbl.foldl (fun acc pr => acc ++ pr.2.map fun v => (normCol v, pr.1)) []

/-- The insertions performed, in order, while building the Python dict
`variation_map` from `COLUMN_MAPPING`. -/
def variationPairs : List (String × String) := tblPairs COLUMN_MAPPING

/-- Lookup in the Python dict `variation_map`: the dict is built by
successive assignment, so the LAST insertion for a key wins. -/
def variationLookup (k : String) : Option String :=
  variationPairs.reverse.lookup k

/-- `variation_map.get(norm_col, df.columns[i])`: the per-header action of
`standardize_columns` before collision handling. -/
def mapName (raw : String) : String := (variationLookup (normCol raw)).getD raw

/-! ## The collision resolver of `standardize_columns` -/

/-- The `while new_col in seen_columns: counter += 1` loop, fuel-bounded.
With fuel `seen.length + 1` the loop always exits via the freshness test. -/
def findCounter (p : String) (seen : List String) : Nat → Nat → Nat
  | c, 0 => c
  | c, fuel + 1 => if suffixed p c ∈ seen then findCounter p seen (c + 1) fuel else c

/-- Resolve one proposed column name against the set of already assigned
names (`seen_columns`): keep it if unused, else suffix with the first
unused counter starting from 2. -/
def resolveOne (p : String) (seen : List String) : String :=
  if p ∈ seen then suffixed p (findCounter p seen 2 (seen.length + 1)) else p

/-- The left-to-right loop over proposed names, threading `seen_columns`. -/
def resolveAux : List String → List String → List String
  | [], _ => []
  | p :: rest, seen =>
      resolveOne p seen :: resolveAux rest (resolveOne p seen :: seen)

/-- The collision resolver: final unique names for a list of proposed
column names. -/
def resolveNames (l : List String) : List String := resolveAux l []

/-- `df.loc[:, ~df.columns.duplicated()]` at the level of column names:
keep the first occurrence of every name. -/
def dedupFirstAux : List String → List String → List String
  | [], _ => []
  | x :: xs, seen =>
      if x ∈ seen then dedupFirstAux xs seen else x :: dedupFirstAux xs (x :: seen)

/-- Keep the first occurrence of each column name. -/
def dedupFirst (l : List String) : List String := dedupFirstAux l []

/-- `standardize_columns` at the level of column names: canonicalize each
header, resolve collisions, then drop duplicated columns (first kept). -/
def standardizeNames (cols : List String) : List String :=
  dedupFirst (resolveNames (cols.map mapName))

/-! ## Regex machinery for the pattern tables

Every regular expression in the source is a plain alternation of literal
substrings, and Python's `re.search`/`re.sub` on such patterns scan the
subject left to right, trying alternatives in written order at each
position.  That is modelled directly on character lists. -/

/-- Does `pat` occur at the very start of `hay`? -/
def startsWithChars : List Char → List Char → Bool
  | [], _ => true
  | _ :: _, [] => false
  | p :: ps, h :: hs => p = h && startsWithChars ps hs

/-- Does `pat` occur anywhere inside `hay` (the `re.search` test for a
literal alternative)? -/
def occursIn : List Char → List Char → Bool
  | pat, [] => pat.isEmpty
  | pat, c :: rest => startsWithChars pat (c :: rest) || occursIn pat rest

/-- Length of the first alternative matching at the head of `l`
(alternatives tried in written order, as Python `re` does). -/
def firstAltLen (alts : List (List Char)) (l : List Char) : Option Nat :=
  alts.findSome? fun a => if startsWithChars a l then some a.length else none

/-- `re.sub` for an alternation of (nonempty) literal alternatives:
leftmost match, first alternative wins, matched part replaced by `lbl`.
Fuel-bounded; fuel = subject length suffices since a match consumes at
least one character. -/
def reSubAux (alts : List (List Char)) (lbl : List Char) : Nat → List Char → List Char
  | _, [] => []
  | 0, l => l
  | fuel + 1, c :: rest =>
      match firstAltLen alts (c :: rest) with
      | some n => lbl ++ reSubAux alts lbl fuel (List.drop (n - 1) rest)
      | none => c :: reSubAux alts lbl fuel rest

/-- `re.sub(pattern, lbl, s)` for a literal alternation `alts`. -/
def reSub (alts : List String) (lbl : String) (s : String) : String :=
  String.mk (reSubAux (alts.map String.data) lbl.data s.data.length s.data)

/-! ## `plot_usage_frequency`: the categorical value normalizer -/

/-- The alternative `haven't used` of the `Never` pattern (built
explicitly around the apostrophe character, code 39). -/
def haventUsed : String :=
  String.mk ['h', 'a', 'v', 'e', 'n', Char.ofNat 39, 't', ' ', 'u', 's', 'e', 'd']

/-- `freq_map` from the source: each regex alternation with its label, in
declaration order. -/
def FREQ_MAP : List (List String × String) := [
  (["daily", "every day", "each day"], "Daily"),
  (["weekly", "every week", "each week"], "Weekly"),
  (["monthly", "every month", "each month"], "Monthly"),
  (["rarely", "sometimes", "occasionally", "seldom"], "Rarely"),
  (["never", "not at all", haventUsed], "Never"),
  (["often", "regularly", "frequently"], "Often")
]

/-- pandas `astype(str)` on one cell: a missing value (`NaN`) becomes the
literal string `nan`; a present string is unchanged. -/
def astypeStr : Option String → String
  | none => "nan"
  | some s => s

/-- The per-cell action of `plot_usage_frequency`:
`astype(str).str.lower().str.strip()`, then
`.replace(to_replace=freq_map, regex=True)`, then `.fillna('Other')`.
After `astype(str)` the cell is always a (non-null) string, so the
`fillna` never fires; that is kept visible as `(some t).getD "Other"`. -/
def usageCategorize (cell : Option String) : String :=
  let s := pyStrip (pyLower (astypeStr cell))
  let t := FREQ_MAP.foldl (fun acc pr => reSub pr.1 pr.2 acc) s
  (some t).getD "Other"

/-! ## `plot_tool_popularity`: tool-name cleaning, applied in place -/

/-- Python `str.title()` (ASCII model): an alphabetic character is
upper-cased after a non-alphabetic character and lower-cased otherwise. -/
def pyTitleAux : Bool → List Char → List Char
  | _, [] => []
  | prev, c :: rest =>
      if c.isAlpha then
        (if prev then c.toLower else c.toUpper) :: pyTitleAux true rest
      else c :: pyTitleAux false rest

/-- Python `str.title()`. -/
def pyTitle (s : String) : String := String.mk (pyTitleAux false s.data)

/-- The exact-value replacement dict of `plot_tool_popularity`
(`regex=False`, whole-cell match). -/
def TOOL_ALIAS : List (String × String) := [
  ("Chatgpt", "ChatGPT"),
  ("Gpt-4", "ChatGPT-4"),
  ("Googlebard", "Google Bard"),
  ("Githubcopilot", "GitHub Copilot")
]

/-- The per-cell cleaning of the AI-tool column:
`astype(str).str.strip().str.title().replace({...}, regex=False)`. -/
def cleanToolCell (s : String) : String :=
  let t := pyTitle (pyStrip s)
  (TOOL_ALIAS.lookup t).getD t

/-- A pandas DataFrame, modelled column-major: ordered columns of
(name, cells). -/
structure DataFrame where
  cols : List (String × List String)
deriving DecidableEq

/-- `next((col for col in cands if col in df.columns), None)`. -/
def findCol (cands : List String) (df : DataFrame) : Option String :=
  cands.find? fun c => df.cols.any fun pr => pr.1 = c

/-- In-place column overwrite `df[name] = f(df[name])`, as the updated
table it leaves behind. -/
def updateCol (df : DataFrame) (name : String) (f : String → String) : DataFrame :=
  ⟨df.cols.map fun pr => if pr.1 = name then (pr.1, pr.2.map f) else pr⟩

/-- Column access by name (first matching column). -/
def getCol (df : DataFrame) (name : String) : Option (List String) :=
  (df.cols.find? fun pr => pr.1 = name).map Prod.snd

/-- The effect of `plot_tool_popularity` on its input table: it rewrites
every cell of the AI-tool column (if present) with `cleanToolCell`; the
rest of the function only reads the table to build the chart. -/
def plotToolPopularityEffect (df : DataFrame) : DataFrame :=
  match findCol ["analysis_ai_tool", "ai_tool"] df with
  | none => df
  | some c => updateCol df c cleanToolCell

/-! ## `analyze_suggestions`: the free-text classifier -/

/-- `patterns` from the source: category label and the literal
alternatives of its regex, in declaration order.  `No suggestions` is the
LAST entry. -/
def SUGGESTION_PATTERNS : List (String × List String) := [
  ("Training/guidance",
    ["train", "guide", "tutorial", "doc", "manual", "help", "learn", "educate"]),
  ("Feature improvements",
    ["feature", "function", "tool", "option", "capability", "improve", "enhance", "add"]),
  ("Better integration",
    ["integrat", "connect", "api", "system", "plugin", "bridge", "import", "export"]),
  ("Cost reduction",
    ["cost", "price", "cheap", "afford", "license", "subscription", "fee", "pay"]),
  ("Improved accuracy",
    ["reliable", "accurate", "quality", "precise", "correct", "better", "trust", "depend"]),
  ("No suggestions",
    ["no", "none", "n/a", "not", "nothing", "nil", "nan", "null", "undefined"])
]

/-- The negative tokens of the `No suggestions` rule. -/
def NEGATIVE_TOKENS : List String :=
  ["no", "none", "n/a", "not", "nothing", "nil", "nan", "null", "undefined"]

/-- `re.search(pattern, s)` for the literal alternation of one rule. -/
def patternMatches (alts : List String) (s : String) : Bool :=
  alts.any fun a => occursIn a.data s.data

/-- The classification loop of `analyze_suggestions`: lower-case the
response, try the rules in declaration order, first match wins and breaks;
no match falls through to `Other suggestions`. -/
def classifySuggestion (s : String) : String :=
  ((SUGGESTION_PATTERNS.find? fun pr => patternMatches pr.2 (pyLower s)).map
    Prod.fst).getD "Other suggestions"

/-- All category labels the classifier can emit. -/
def SUGGESTION_CATEGORIES : List String :=
  SUGGESTION_PATTERNS.map Prod.fst ++ ["Other suggestions"]

/-- Classification of one raw feedback cell:
`df[col].astype(str)` turns a missing cell into the string `nan`, then the
classifier runs on it.  (The source's `.dropna()` after `astype(str)` can
drop nothing, since `astype(str)` leaves no null behind.) -/
def classifyCell (c : Option String) : String := classifySuggestion (astypeStr c)

/-- The whole-batch classification of `analyze_suggestions`. -/
def analyzeBatch (batch : List (Option String)) : List String := batch.map classifyCell

/-- `value_counts(normalize=True) * 100`: per distinct category, its
percentage of the batch (exact rational arithmetic). -/
def categoryPercentages (cats : List String) : List (String × ℚ) :=
  cats.dedup.map fun c => (c, 100 * (cats.count c : ℚ) / cats.length)

/-! ## Spec-side comparison functions for alias priority (claim C1) -/

/-- Modelled from the spec's words (not from the code): assign the
canonical field declared FIRST among those listing the alias. -/
def specFirstDeclared (k : String) : Option String :=
  COLUMN_MAPPING.findSome? fun pr => if k ∈ pr.2.map normCol then some pr.1 else none

/-- Modelled from the amended reading: assign the canonical field declared
LAST among those listing the alias. -/
def specLastDeclared (k : String) : Option String :=
  COLUMN_MAPPING.reverse.findSome? fun pr => if k ∈ pr.2.map normCol then some pr.1 else none

/-! # Lemmas

## Decimal rendering: well-definedness and injectivity -/

theorem decDigitsAux_congr :
    ∀ (n f1 f2 : Nat), n ≤ f1 → n ≤ f2 → decDigitsAux f1 n = decDigitsAux f2 n := by
  intro n
  induction n using Nat.strong_induction_on with
  | _ n ih =>
    intro f1 f2 h1 h2
    cases f1 with
    | zero =>
      have hn : n = 0 := Nat.le_zero.mp h1
      subst hn
      cases f2 with
      | zero => rfl
      | succ b => simp [decDigitsAux]
    | succ a =>
      cases f2 with
      | zero =>
        have hn : n = 0 := Nat.le_zero.mp h2
        subst hn
        simp [decDigitsAux]
      | succ b =>
        by_cases hlt : n < 10
        · simp [decDigitsAux, hlt]
        · have hdiv : n / 10 < n := Nat.div_lt_self (by omega) (by omega)
          simp only [decDigitsAux, if_neg hlt]
          rw [ih (n / 10) hdiv a b (by omega) (by omega)]

theorem decDigits_step (n : Nat) :
    decDigits n =
      if n < 10 then [decDigitChar n]
      else decDigits (n / 10) ++ [decDigitChar (n % 10)] := by
  unfold decDigits
  by_cases h : n < 10
  · rw [if_pos h]
    cases n with
    | zero => rfl
    | succ k => simp [decDigitsAux, h]
  · rw [if_neg h]
    cases n with
    | zero => omega
    | succ k =>
      have hdiv : (k + 1) / 10 < k + 1 := Nat.div_lt_self (by omega) (by omega)
      simp only [decDigitsAux, if_neg h]
      rw [decDigitsAux_congr ((k + 1) / 10) k ((k + 1) / 10) (by omega) (le_refl _)]

theorem decDigitChar_toNat (n : Nat) (h : n < 10) : (decDigitChar n).toNat = 48 + n := by
  interval_cases n <;> decide

theorem decDigitChar_isDigit (n : Nat) (h : n < 10) : (decDigitChar n).isDigit = true := by
  interval_cases n <;> decide

theorem decVal_decDigits (n : Nat) : decVal (decDigits n) = n := by
  induction n using Nat.strong_induction_on with
  | _ n ih =>
    rw [decDigits_step]
    by_cases h : n < 10
    · rw [if_pos h]
      simp only [decVal, List.foldl_cons, List.foldl_nil]
      rw [decDigitChar_toNat n h]
      omega
    · rw [if_neg h]
      have hdiv : n / 10 < n := Nat.div_lt_self (by omega) (by omega)
      have h1 := ih (n / 10) hdiv
      simp only [decVal, List.foldl_append, List.foldl_cons, List.foldl_nil] at h1 ⊢
      rw [h1, decDigitChar_toNat (n % 10) (Nat.mod_lt _ (by omega))]
      omega

theorem decDigits_ne_nil (n : Nat) : decDigits n ≠ [] := by
  rw [decDigits_step]
  split
  · simp
  · simp

theorem decDigits_all_digit (n : Nat) : ∀ c ∈ decDigits n, c.isDigit = true := by
  induction n using Nat.strong_induction_on with
  | _ n ih =>
    rw [decDigits_step]
    by_cases h : n < 10
    · rw [if_pos h]
      intro c hc
      rw [List.mem_singleton] at hc
      subst hc
      exact decDigitChar_isDigit n h
    · rw [if_neg h]
      intro c hc
      rcases List.mem_append.mp hc with hl | hr
      · exact ih (n / 10) (Nat.div_lt_self (by omega) (by omega)) c hl
      · rw [List.mem_singleton] at hr
        subst hr
        exact decDigitChar_isDigit _ (Nat.mod_lt _ (by omega))

theorem suffixed_data (base : String) (c : Nat) :
    (suffixed base c).data = base.data ++ '_' :: decDigits c := by
  show ((base ++ "_") ++ decStr c).data = _
  rw [String.data_append, String.data_append, List.append_assoc]
  rfl

theorem suffixed_inj {base : String} {c1 c2 : Nat}
    (h : suffixed base c1 = suffixed base c2) : c1 = c2 := by
  have hd := congrArg String.data h
  rw [suffixed_data, suffixed_data] at hd
  have h2 : decDigits c1 = decDigits c2 :=
    List.cons_injective (List.append_cancel_left hd)
  have := congrArg decVal h2
  rwa [decVal_decDigits, decVal_decDigits] at this

/-! ## The `while` loop of the collision resolver always finds a fresh suffix -/

theorem exists_fresh (p : String) (seen : List String) :
    ∃ j, j < seen.length + 1 ∧ suffixed p (2 + j) ∉ seen := by
  by_contra hc
  push_neg at hc
  have hinj : Function.Injective fun j : Nat => suffixed p (2 + j) := by
    intro a b hab
    have := suffixed_inj hab
    omega
  have hNodup : ((List.range (seen.length + 1)).map fun j => suffixed p (2 + j)).Nodup :=
    (List.nodup_range _).map hinj
  have hsub : ((List.range (seen.length + 1)).map fun j => suffixed p (2 + j)).toFinset
      ⊆ seen.toFinset := by
    intro x hx
    rw [List.mem_toFinset] at hx ⊢
    obtain ⟨j, hj, rfl⟩ := List.mem_map.mp hx
    exact hc j (List.mem_range.mp hj)
  have h1 := List.toFinset_card_of_nodup hNodup
  rw [List.length_map, List.length_range] at h1
  have h2 := Finset.card_le_card hsub
  have h3 := seen.toFinset_card_le
  omega

theorem findCounter_spec (p : String) (seen : List String) :
    ∀ (fuel c : Nat), (∃ j, j < fuel ∧ suffixed p (c + j) ∉ seen) →
      c ≤ findCounter p seen c fuel ∧
      suffixed p (findCounter p seen c fuel) ∉ seen ∧
      ∀ m, c ≤ m → m < findCounter p seen c fuel → suffixed p m ∈ seen := by
  intro fuel
  induction fuel with
  | zero =>
    rintro c ⟨j, hj, _⟩
    omega
  | succ f ih =>
    rintro c ⟨j, hj, hfresh⟩
    rw [findCounter]
    by_cases hc : suffixed p c ∈ seen
    · rw [if_pos hc]
      have hex : ∃ j', j' < f ∧ suffixed p (c + 1 + j') ∉ seen := by
        cases j with
        | zero =>
          rw [Nat.add_zero] at hfresh
          exact absurd hc hfresh
        | succ j' =>
          refine ⟨j', by omega, ?_⟩
          rwa [show c + 1 + j' = c + (j' + 1) by omega]
      obtain ⟨h1, h2, h3⟩ := ih (c + 1) hex
      refine ⟨by omega, h2, fun m hm1 hm2 => ?_⟩
      rcases Nat.eq_or_lt_of_le hm1 with rfl | hlt
      · exact hc
      · exact h3 m (by omega) hm2
    · rw [if_neg hc]
      exact ⟨le_refl c, hc, fun m hm1 hm2 => absurd hm1 (by omega)⟩

theorem resolveOne_not_mem (p : String) (seen : List String) (h : p ∉ seen) :
    resolveOne p seen = p := by
  simp [resolveOne, h]

theorem resolveOne_mem (p : String) (seen : List String) (h : p ∈ seen) :
    ∃ c, 2 ≤ c ∧ resolveOne p seen = suffixed p c ∧ suffixed p c ∉ seen ∧
      ∀ m, 2 ≤ m → m < c → suffixed p m ∈ seen := by
  obtain ⟨j, hj, hfresh⟩ := exists_fresh p seen
  have hex : ∃ j, j < seen.length + 1 ∧ suffixed p (2 + j) ∉ seen := ⟨j, hj, hfresh⟩
  obtain ⟨h1, h2, h3⟩ := findCounter_spec p seen (seen.length + 1) 2 hex
  exact ⟨findCounter p seen 2 (seen.length + 1), h1, by simp [resolveOne, h], h2, h3⟩

theorem resolveOne_fresh (p : String) (seen : List String) : resolveOne p seen ∉ seen := by
  by_cases h : p ∈ seen
  · obtain ⟨c, _, heq, hf, _⟩ := resolveOne_mem p seen h
    rwa [heq]
  · rwa [resolveOne_not_mem p seen h]

/-! ## Structure of the resolver's output -/

theorem resolveAux_length : ∀ (l seen : List String), (resolveAux l seen).length = l.length := by
  intro l
  induction l with
  | nil => intro seen; rfl
  | cons p rest ih =>
    intro seen
    simp [resolveAux, ih]

theorem resolveAux_not_mem_seen :
    ∀ (l seen : List String), ∀ x ∈ resolveAux l seen, x ∉ seen := by
  intro l
  induction l with
  | nil =>
    intro seen x hx
    simp [resolveAux] at hx
  | cons p rest ih =>
    intro seen x hx
    rcases List.mem_cons.mp hx with rfl | hx'
    · exact resolveOne_fresh p seen
    · intro hmem
      exact ih (resolveOne p seen :: seen) x hx' (List.mem_cons_of_mem _ hmem)

theorem resolveAux_nodup : ∀ (l seen : List String), (resolveAux l seen).Nodup := by
  intro l
  induction l with
  | nil => intro seen; exact List.nodup_nil
  | cons p rest ih =>
    intro seen
    refine List.nodup_cons.mpr ⟨fun hmem => ?_, ih _⟩
    exact resolveAux_not_mem_seen rest (resolveOne p seen :: seen) _ hmem (List.mem_cons_self _ _)

theorem resolveAux_shape :
    ∀ (l seen : List String), ∀ x ∈ resolveAux l seen,
      ∃ p, p ∈ l ∧ (x = p ∨ ∃ c, x = suffixed p c) := by
  intro l
  induction l with
  | nil =>
    intro seen x hx
    simp [resolveAux] at hx
  | cons p rest ih =>
    intro seen x hx
    rcases List.mem_cons.mp hx with rfl | hx'
    · by_cases h : p ∈ seen
      · obtain ⟨c, _, heq, _, _⟩ := resolveOne_mem p seen h
        exact ⟨p, List.mem_cons_self _ _, Or.inr ⟨c, heq⟩⟩
      · exact ⟨p, List.mem_cons_self _ _, Or.inl (resolveOne_not_mem p seen h)⟩
    · obtain ⟨q, hq, hform⟩ := ih _ x hx'
      exact ⟨q, List.mem_cons_of_mem _ hq, hform⟩

theorem resolveAux_id :
    ∀ (l seen : List String), l.Nodup → (∀ x ∈ l, x ∉ seen) → resolveAux l seen = l := by
  intro l
  induction l with
  | nil => intro seen _ _; rfl
  | cons p rest ih =>
    intro seen hnd hdis
    have hp : resolveOne p seen = p := resolveOne_not_mem p seen (hdis p (List.mem_cons_self _ _))
    rw [resolveAux, hp, ih (p :: seen) (List.nodup_cons.mp hnd).2]
    intro x hx
    rw [List.mem_cons]
    rintro (rfl | hmem)
    · exact (List.nodup_cons.mp hnd).1 hx
    · exact hdis x (List.mem_cons_of_mem _ hx) hmem

theorem dedupFirstAux_id :
    ∀ (l seen : List String), l.Nodup → (∀ x ∈ l, x ∉ seen) → dedupFirstAux l seen = l := by
  intro l
  induction l with
  | nil => intro seen _ _; rfl
  | cons x xs ih =>
    intro seen hnd hdis
    rw [dedupFirstAux, if_neg (hdis x (List.mem_cons_self _ _)), ih (x :: seen) (List.nodup_cons.mp hnd).2]
    intro y hy
    rw [List.mem_cons]
    rintro (rfl | hmem)
    · exact (List.nodup_cons.mp hnd).1 hy
    · exact hdis y (List.mem_cons_of_mem _ hy) hmem

theorem mem_string_middle (n : String) (seen T : List String) (x : String) :
    x ∈ (n :: seen) ++ T ↔ x ∈ seen ++ n :: T := by
  simp only [List.mem_append, List.mem_cons]
  tauto

theorem resolveAux_get :
    ∀ (l seen : List String) (i : Nat) (hi : i < l.length)
      (ho : i < (resolveAux l seen).length),
      (l.get ⟨i, hi⟩ ∉ seen ++ (resolveAux l seen).take i →
        (resolveAux l seen).get ⟨i, ho⟩ = l.get ⟨i, hi⟩) ∧
      (l.get ⟨i, hi⟩ ∈ seen ++ (resolveAux l seen).take i →
        ∃ c, 2 ≤ c ∧ (resolveAux l seen).get ⟨i, ho⟩ = suffixed (l.get ⟨i, hi⟩) c ∧
          suffixed (l.get ⟨i, hi⟩) c ∉ seen ++ (resolveAux l seen).take i ∧
          ∀ m, 2 ≤ m → m < c →
            suffixed (l.get ⟨i, hi⟩) m ∈ seen ++ (resolveAux l seen).take i) := by
  intro l
  induction l with
  | nil =>
    intro seen i hi
    exact absurd hi (by simp)
  | cons p rest ih =>
    intro seen i hi ho
    cases i with
    | zero =>
      constructor
      · intro h
        simp only [List.take_zero, List.append_nil] at h
        exact resolveOne_not_mem p seen h
      · intro h
        simp only [List.take_zero, List.append_nil] at h ⊢
        exact resolveOne_mem p seen h
    | succ j =>
      have hi' : j < rest.length := by simpa using hi
      have ho' : j < (resolveAux rest (resolveOne p seen :: seen)).length := by
        rw [resolveAux_length]
        exact hi'
      have key := ih (resolveOne p seen :: seen) j hi' ho'
      have htake : (resolveAux (p :: rest) seen).take (j + 1)
          = resolveOne p seen :: (resolveAux rest (resolveOne p seen :: seen)).take j := rfl
      have hmem : ∀ x : String,
          x ∈ (resolveOne p seen :: seen)
                ++ (resolveAux rest (resolveOne p seen :: seen)).take j
          ↔ x ∈ seen ++ (resolveAux (p :: rest) seen).take (j + 1) := by
        intro x
        rw [htake]
        exact mem_string_middle _ _ _ _
      refine ⟨fun h => key.1 (fun hin => h ((hmem _).mp hin)), fun h => ?_⟩
      obtain ⟨c, hc2, hceq, hcfresh, hcmin⟩ := key.2 ((hmem _).mpr h)
      exact ⟨c, hc2, hceq, fun hin => hcfresh ((hmem _).mpr hin),
        fun m hm1 hm2 => (hmem _).mp (hcmin m hm1 hm2)⟩

/-! ## Canonical and suffixed names are fixed points of the header mapping -/

theorem lookup_mem {l : List (String × String)} {k v : String}
    (h : l.lookup k = some v) : (k, v) ∈ l := by
  induction l with
  | nil => simp [List.lookup] at h
  | cons a tl ih =>
    obtain ⟨a1, a2⟩ := a
    rw [List.lookup] at h
    split at h
    · next heq =>
      rw [List.mem_cons]
      left
      have hk : k = a1 := by simpa using heq
      have hv : a2 = v := by simpa using h
      rw [hk, hv]
    · exact List.mem_cons_of_mem _ (ih h)

theorem variationPairs_vals : ∀ pr ∈ variationPairs, pr.2 ∈ COLUMN_MAPPING.map Prod.fst := by
  decide

theorem canonical_fixed : ∀ c ∈ COLUMN_MAPPING.map Prod.fst, mapName c = c := by
  decide

theorem keys_not_digit_end :
    ∀ pr ∈ variationPairs, ((pr.1.data.getLast?).map Char.isDigit).getD false = false := by
  decide

theorem mapName_idem (raw : String) : mapName (mapName raw) = mapName raw := by
  cases h : variationLookup (normCol raw) with
  | none => simp [mapName, h]
  | some v =>
    have hv : v ∈ COLUMN_MAPPING.map Prod.fst := by
      have hm : (normCol raw, v) ∈ variationPairs.reverse := lookup_mem h
      exact variationPairs_vals _ (List.mem_reverse.mp hm)
    have hfix := canonical_fixed v hv
    simp [mapName, h, hfix]
    simpa [mapName] using hfix

theorem toLower_of_isDigit {c : Char} (h : c.isDigit = true) : c.toLower = c := by
  simp only [Char.isDigit, Bool.and_eq_true, decide_eq_true_eq] at h
  simp only [Char.toLower, Char.toNat]
  rw [if_neg]
  rintro ⟨h1, _⟩
  have hle : c.val.toNat ≤ 57 := by exact_mod_cast UInt32.le_def.mp h.2
  omega

theorem pyWS_of_isDigit {c : Char} (h : c.isDigit = true) : pyWS c = false := by
  have hne : ∀ w : Char, w.isDigit = false → c ≠ w := by
    rintro w hw rfl
    rw [h] at hw
    cases hw
  simp only [pyWS, Bool.or_eq_false_iff]
  refine ⟨⟨⟨⟨⟨?_, ?_⟩, ?_⟩, ?_⟩, ?_⟩, ?_⟩ <;>
    exact decide_eq_false (hne _ (by decide))

theorem spaceToUnderscore_of_isDigit {c : Char} (h : c.isDigit = true) :
    spaceToUnderscore c = c := by
  have : c ≠ ' ' := by
    rintro rfl
    cases h
  simp [spaceToUnderscore, this]

theorem getLast?_dropWhile {p : Char → Bool} {l : List Char} {d : Char}
    (h : l.getLast? = some d) (hd : p d = false) :
    (l.dropWhile p).getLast? = some d := by
  induction l with
  | nil => simp at h
  | cons x xs ih =>
    rw [List.dropWhile]
    split
    · next hx =>
      cases xs with
      | nil =>
        simp only [List.getLast?_singleton, Option.some.injEq] at h
        subst h
        rw [hx] at hd
        cases hd
      | cons y ys =>
        rw [List.getLast?_cons_cons] at h
        exact ih h
    · exact h

theorem trimRight_of_getLast? {l : List Char} {d : Char}
    (h : l.getLast? = some d) (hd : pyWS d = false) :
    (l.reverse.dropWhile pyWS).reverse = l := by
  cases hrev : l.reverse with
  | nil =>
    rw [List.reverse_eq_nil_iff] at hrev
    subst hrev
    simp at h
  | cons a t =>
    have hhead : l.reverse.head? = some d := by rw [List.head?_reverse, h]
    rw [hrev] at hhead
    simp only [List.head?_cons, Option.some.injEq] at hhead
    subst hhead
    have hdw : List.dropWhile pyWS (a :: t) = a :: t := by
      rw [List.dropWhile_cons, hd]
      simp
    rw [hdw, ← hrev, List.reverse_reverse]

theorem pyStripChars_getLast? {l : List Char} {d : Char}
    (h : l.getLast? = some d) (hd : pyWS d = false) :
    (pyStripChars l).getLast? = some d := by
  unfold pyStripChars
  have h1 : (l.dropWhile pyWS).getLast? = some d := getLast?_dropWhile h hd
  rw [trimRight_of_getLast? h1 hd]
  exact h1

theorem normCol_getLast? {s : String} {d : Char}
    (h : s.data.getLast? = some d) (hdig : d.isDigit = true) :
    (normCol s).data.getLast? = some d := by
  unfold normCol pyReplaceSpace pyStrip pyLower
  show ((pyStripChars (s.data.map Char.toLower)).map spaceToUnderscore).getLast? = some d
  have h1 : (s.data.map Char.toLower).getLast? = some d := by
    rw [List.getLast?_map, h]
    simp [toLower_of_isDigit hdig]
  have h2 : (pyStripChars (s.data.map Char.toLower)).getLast? = some d :=
    pyStripChars_getLast? h1 (pyWS_of_isDigit hdig)
  rw [List.getLast?_map, h2]
  simp [spaceToUnderscore_of_isDigit hdig]

theorem suffixed_getLast?_digit (base : String) (c : Nat) :
    ∃ d, (suffixed base c).data.getLast? = some d ∧ d.isDigit = true := by
  have hne := decDigits_ne_nil c
  have hcons : ('_' :: decDigits c : List Char) ≠ [] := by simp
  refine ⟨(decDigits c).getLast hne, ?_, ?_⟩
  · rw [suffixed_data, List.getLast?_append_of_ne_nil _ hcons]
    show ((['_'] ++ decDigits c : List Char)).getLast? = _
    rw [List.getLast?_append_of_ne_nil _ hne]
    exact List.getLast?_eq_getLast _ hne
  · exact decDigits_all_digit c _ ((decDigits c).getLast_mem hne)

theorem variationLookup_suffixed (base : String) (c : Nat) :
    variationLookup (normCol (suffixed base c)) = none := by
  cases h : variationLookup (normCol (suffixed base c)) with
  | none => rfl
  | some v =>
    exfalso
    have hm := List.mem_reverse.mp (lookup_mem h)
    have hkey := keys_not_digit_end _ hm
    obtain ⟨d, hd, hdig⟩ := suffixed_getLast?_digit base c
    have h2 := normCol_getLast? hd hdig
    rw [h2] at hkey
    simp [hdig] at hkey

theorem mapName_suffixed (base : String) (c : Nat) :
    mapName (suffixed base c) = suffixed base c := by
  simp [mapName, variationLookup_suffixed]

/-! ## Idempotence of `standardize_columns` -/

theorem map_fix (f : String → String) :
    ∀ (l : List String), (∀ x ∈ l, f x = x) → l.map f = l := by
  intro l
  induction l with
  | nil => intro _; rfl
  | cons x xs ih =>
    intro h
    rw [List.map_cons, h x (List.mem_cons_self _ _), ih fun y hy => h y (List.mem_cons_of_mem _ hy)]

theorem standardizeNames_eq_resolve (cols : List String) :
    standardizeNames cols = resolveAux (cols.map mapName) [] := by
  unfold standardizeNames dedupFirst resolveNames
  exact dedupFirstAux_id _ [] (resolveAux_nodup _ _) (by simp)

/-! ## Dict lookup agrees with last-declaration order in the alias table -/

theorem tblPairs_foldl_acc :
    ∀ (tbl : List (String × List String)) (acc : List (String × String)),
      tbl.foldl (fun acc pr => acc ++ pr.2.map fun v => (normCol v, pr.1)) acc
        = acc ++ tblPairs tbl := by
  intro tbl
  induction tbl with
  | nil => intro acc; simp [tblPairs]
  | cons pr tl ih =>
    intro acc
    rw [List.foldl_cons, ih, List.append_assoc, ← ih (pr.2.map fun v => (normCol v, pr.1))]
    rfl

theorem tblPairs_cons (pr : String × List String) (tl : List (String × List String)) :
    tblPairs (pr :: tl) = (pr.2.map fun v => (normCol v, pr.1)) ++ tblPairs tl :=
  tblPairs_foldl_acc tl _

theorem lookup_uniform (k c : String) :
    ∀ (ws : List String),
      (ws.map fun v => (normCol v, c)).lookup k
        = if k ∈ ws.map normCol then some c else none := by
  intro ws
  induction ws with
  | nil => simp [List.lookup]
  | cons w t ih =>
    rw [List.map_cons, List.lookup]
    cases hbeq : k == normCol w with
    | true =>
      have hk : k = normCol w := eq_of_beq hbeq
      simp [hk]
    | false =>
      have hk : ¬ k = normCol w := fun he => by simp [he] at hbeq
      show List.lookup k (t.map fun v => (normCol v, c)) = _
      rw [ih]
      by_cases hmem : k ∈ t.map normCol
      · rw [if_pos hmem, List.map_cons, if_pos (List.mem_cons_of_mem _ hmem)]
      · rw [if_neg hmem, List.map_cons, if_neg fun hin => (List.mem_cons.mp hin).elim hk hmem]

theorem lookup_uniform_rev (k c : String) (ws : List String) :
    ((ws.map fun v => (normCol v, c)).reverse).lookup k
      = if k ∈ ws.map normCol then some c else none := by
  rw [← List.map_reverse, lookup_uniform]
  by_cases h : k ∈ ws.map normCol
  · have h' : k ∈ ws.reverse.map normCol := by rwa [List.map_reverse, List.mem_reverse]
    rw [if_pos h', if_pos h]
  · have h' : k ∉ ws.reverse.map normCol := by rwa [List.map_reverse, List.mem_reverse]
    rw [if_neg h', if_neg h]

theorem lookup_append (k : String) :
    ∀ (l1 l2 : List (String × String)),
      (l1 ++ l2).lookup k = (l1.lookup k).or (l2.lookup k) := by
  intro l1 l2
  induction l1 with
  | nil => simp [List.lookup]
  | cons a t ih =>
    obtain ⟨a1, a2⟩ := a
    rw [List.cons_append, List.lookup, List.lookup]
    cases hbeq : k == a1 with
    | true => simp
    | false =>
      show List.lookup k (t ++ l2) = _
      rw [ih]

theorem tblPairs_lookup :
    ∀ (tbl : List (String × List String)) (k : String),
      (tblPairs tbl).reverse.lookup k
        = tbl.reverse.findSome? fun pr => if k ∈ pr.2.map normCol then some pr.1 else none := by
  intro tbl
  induction tbl with
  | nil => intro k; rfl
  | cons pr tl ih =>
    intro k
    rw [tblPairs_cons, List.reverse_append, lookup_append, lookup_uniform_rev,
      List.reverse_cons, List.findSome?_append, ih]
    by_cases h : k ∈ pr.2.map normCol
    · simp [List.findSome?, h]
    · simp [List.findSome?, h]

theorem variationLookup_eq_spec (k : String) : variationLookup k = specLastDeclared k := by
  unfold variationLookup variationPairs specLastDeclared
  exact tblPairs_lookup COLUMN_MAPPING k

/-! ## Distribution percentages of the free-text classifier -/

theorem count_cast_sum (m : List String) :
    (m.dedup.map fun c => ((m.count c : ℕ) : ℚ)).sum = (m.length : ℚ) := by
  calc (m.dedup.map fun c => ((m.count c : ℕ) : ℚ)).sum
      = ((m.dedup.map fun x => m.count x).map (fun n : ℕ => (n : ℚ))).sum := by
        rw [List.map_map]
        rfl
    _ = (((m.dedup.map fun x => m.count x).sum : ℕ) : ℚ) := (Nat.cast_list_sum _).symm
    _ = (m.length : ℚ) := by rw [List.sum_map_count_dedup_eq_length]

theorem percentages_sum (m : List String) (hm : m ≠ []) :
    ((categoryPercentages m).map Prod.snd).sum = 100 := by
  have hlen0 : m.length ≠ 0 := fun h0 => hm (List.length_eq_zero.mp h0)
  have hlen : ((m.length : ℕ) : ℚ) ≠ 0 := Nat.cast_ne_zero.mpr hlen0
  unfold categoryPercentages
  rw [List.map_map]
  have hfun : (Prod.snd ∘ fun c => (c, 100 * (m.count c : ℚ) / m.length))
      = fun c => (100 / (m.length : ℚ)) * (m.count c : ℚ) := by
    funext c
    show 100 * (m.count c : ℚ) / m.length = _
    ring
  rw [hfun, List.sum_map_mul_left, count_cast_sum, div_mul_cancel₀ _ hlen]

theorem classify_mem (s : String) : classifySuggestion s ∈ SUGGESTION_CATEGORIES := by
  unfold classifySuggestion SUGGESTION_CATEGORIES
  cases h : SUGGESTION_PATTERNS.find? (fun pr => patternMatches pr.2 (pyLower s)) with
  | none => simp [h]
  | some pr =>
    simp only [h, Option.map_some', Option.getD_some]
    exact List.mem_append.mpr (Or.inl (List.mem_map_of_mem _ (List.mem_of_find?_eq_some h)))

/-! ## Column access after the in-place tool-name rewrite -/

theorem updateCol_fst (n : String) (f : String → String) (pr : String × List String) :
    ((fun pr : String × List String => if pr.1 = n then (pr.1, pr.2.map f) else pr) pr).1 = pr.1 := by
  by_cases h : pr.1 = n <;> simp [h]

theorem getCol_updateCol_same (df : DataFrame) (n : String) (f : String → String) :
    getCol (updateCol df n f) n = (getCol df n).map (List.map f) := by
  unfold getCol updateCol
  rw [List.find?_map]
  have hpred : ((fun pr : String × List String => decide (pr.1 = n)) ∘
      fun pr : String × List String => if pr.1 = n then (pr.1, pr.2.map f) else pr)
      = fun pr : String × List String => decide (pr.1 = n) := by
    funext pr
    show decide (((fun pr : String × List String =>
      if pr.1 = n then (pr.1, pr.2.map f) else pr) pr).1 = n) = _
    rw [updateCol_fst n f pr]
  rw [hpred]
  cases hfind : df.cols.find? (fun pr => decide (pr.1 = n)) with
  | none => rfl
  | some pr =>
    have hp' := List.find?_some hfind
    have hp : pr.1 = n := of_decide_eq_true hp'
    simp [hp]

theorem getCol_updateCol_other (df : DataFrame) (n : String) (f : String → String)
    (m : String) (h : m ≠ n) :
    getCol (updateCol df n f) m = getCol df m := by
  unfold getCol updateCol
  rw [List.find?_map]
  have hpred : ((fun pr : String × List String => decide (pr.1 = m)) ∘
      fun pr : String × List String => if pr.1 = n then (pr.1, pr.2.map f) else pr)
      = fun pr : String × List String => decide (pr.1 = m) := by
    funext pr
    show decide (((fun pr : String × List String =>
      if pr.1 = n then (pr.1, pr.2.map f) else pr) pr).1 = m) = _
    rw [updateCol_fst n f pr]
  rw [hpred]
  cases hfind : df.cols.find? (fun pr => decide (pr.1 = m)) with
  | none => rfl
  | some pr =>
    have hp' := List.find?_some hfind
    have hp : pr.1 = m := of_decide_eq_true hp'
    have hpn : ¬ pr.1 = n := by rw [hp]; exact h
    simp [hpn]

/-! # Claim theorems -/

/-- C1 counterexample: the raw header `time` is an alias of both
`analysis_timestamp` (declared first) and `analysis_efficiency` (declared
last); the canonicalizer assigns `analysis_efficiency`, not the
first-declared field, so first-match-wins in declaration order is false. -/
theorem claim_C1_counterexample :
    specFirstDeclared (normCol "time") = some "analysis_timestamp" ∧
    mapName "time" = "analysis_efficiency" ∧
    mapName "time" ≠ "analysis_timestamp" := by
  decide

/-- C1 (amended): for a raw header whose normalized form is listed under
more than one canonical field, the canonicalizer assigns the canonical
field declared LAST in table order (the Python dict is built by
overwriting), and otherwise behaves as a last-declaration-wins lookup with
verbatim fallback; in particular `time` maps to `analysis_efficiency`. -/
theorem claim_C1_theorem :
    (∀ raw : String, mapName raw = (specLastDeclared (normCol raw)).getD raw) ∧
    mapName "time" = "analysis_efficiency" := by
  constructor
  · intro raw
    rw [mapName, variationLookup_eq_spec]
  · decide

/-- C2 counterexample: the negative-token rule (`No suggestions`) is the
LAST rule of the classifier's pattern table, not the first; the first rule
tried is the training keyword rule, and an input containing the declared
negative token `not` together with a keyword is captured by the keyword
rule, so negative-token recognition does not happen before the keyword
rules. -/
theorem claim_C2_counterexample :
    (SUGGESTION_PATTERNS.map Prod.fst).head? = some "Training/guidance" ∧
    (SUGGESTION_PATTERNS.map Prod.fst).getLast? = some "No suggestions" ∧
    classifySuggestion "not accurate" = "Improved accuracy" := by
  decide

/-- C2 (amended): the negative-token rule is declared last and is tried
after every keyword rule, but since no declared negative token contains a
keyword of an earlier rule, every input equal to a declared negative token
is still classified as `No suggestions`. -/
theorem claim_C2_theorem :
    (SUGGESTION_PATTERNS.getLast?).map Prod.fst = some "No suggestions" ∧
    (SUGGESTION_PATTERNS.getLast?).map Prod.snd = some NEGATIVE_TOKENS ∧
    ∀ t ∈ NEGATIVE_TOKENS, classifySuggestion t = "No suggestions" := by
  decide

/-- C2 witness: the declared negative token `none` classifies as
`No suggestions`. -/
theorem claim_C2_witness : classifySuggestion "none" = "No suggestions" :=
  claim_C2_theorem.2.2 "none" (by decide)

/-- C3 (code bug): a usage-frequency cell matching no normalization
pattern is NOT mapped to the fallback `Other` but passes through
unchanged (`biannually` stays `biannually`), and a missing cell becomes
the string `nan` rather than a distinct missing-value fallback: the
`fillna('Other')` in the source is dead code because `astype(str)` runs
first and leaves no null to fill. -/
theorem claim_C3_theorem :
    usageCategorize (some "biannually") = "biannually" ∧
    usageCategorize (some "biannually") ≠ "Other" ∧
    usageCategorize none = "nan" ∧
    usageCategorize none ≠ "Other" := by
  decide

/-- C4 counterexample: on the input `[a, a, a_2, a_2]` the name `a_2` is a
colliding proposed name (it occurs twice, first at index 2), yet its first
occurrence does not receive its unsuffixed form: it is renamed `a_2_2`
because `a_2` was already assigned as the suffixed rename of the earlier
duplicate `a`. -/
theorem claim_C4_counterexample :
    resolveNames ["a", "a", "a_2", "a_2"] = ["a", "a_2", "a_2_2", "a_2_3"] ∧
    List.count "a_2" ["a", "a", "a_2", "a_2"] = 2 ∧
    List.indexOf "a_2" ["a", "a", "a_2", "a_2"] = 2 ∧
    (resolveNames ["a", "a", "a_2", "a_2"]).get ⟨2, by decide⟩ ≠ "a_2" := by
  decide

/-- C4 (amended): for every input list of proposed names the resolver
outputs pairwise-distinct names, preserves input order and length, gives a
proposed name its unsuffixed form whenever that name has not already been
assigned to an earlier column, and otherwise renames it with the smallest
numeric suffix, starting at 2, unused among the earlier assignments. -/
theorem claim_C4_theorem (l : List String) :
    (resolveNames l).Nodup ∧
    (resolveNames l).length = l.length ∧
    ∀ (i : Nat) (hi : i < l.length) (ho : i < (resolveNames l).length),
      (l.get ⟨i, hi⟩ ∉ (resolveNames l).take i →
        (resolveNames l).get ⟨i, ho⟩ = l.get ⟨i, hi⟩) ∧
      (l.get ⟨i, hi⟩ ∈ (resolveNames l).take i →
        ∃ c, 2 ≤ c ∧ (resolveNames l).get ⟨i, ho⟩ = suffixed (l.get ⟨i, hi⟩) c ∧
          suffixed (l.get ⟨i, hi⟩) c ∉ (resolveNames l).take i ∧
          ∀ m, 2 ≤ m → m < c → suffixed (l.get ⟨i, hi⟩) m ∈ (resolveNames l).take i) := by
  refine ⟨resolveAux_nodup l [], resolveAux_length l [], fun i hi ho => ?_⟩
  have key := resolveAux_get l [] i hi ho
  simp only [List.nil_append] at key
  exact key

/-- C4 witness: on the duplicate input `[a, a]` the output is duplicate
free and the second column receives a suffixed name of the form `a_c`. -/
theorem claim_C4_witness :
    (resolveNames ["a", "a"]).Nodup ∧
    ∃ c, 2 ≤ c ∧ (resolveNames ["a", "a"]).get ⟨1, by decide⟩ = suffixed "a" c := by
  have h4 := claim_C4_theorem (List.cons "a" (List.cons "a" List.nil))
  refine ⟨h4.1, ?_⟩
  obtain ⟨c, hc2, hget, _, _⟩ := (h4.2.2 1 (by decide) (by decide)).2 (by decide)
  exact ⟨c, hc2, hget⟩

/-- C5: `standardize_columns` is idempotent on column names: applying the
header canonicalizer plus the collision resolver to its own output leaves
every column name unchanged. -/
theorem claim_C5_theorem (cols : List String) :
    standardizeNames (standardizeNames cols) = standardizeNames cols := by
  rw [standardizeNames_eq_resolve cols,
    standardizeNames_eq_resolve (resolveAux (cols.map mapName) [])]
  have hfix : (resolveAux (cols.map mapName) []).map mapName
      = resolveAux (cols.map mapName) [] := by
    apply map_fix
    intro x hx
    obtain ⟨p, hp, hform⟩ := resolveAux_shape _ [] x hx
    obtain ⟨raw, _, rfl⟩ := List.mem_map.mp hp
    rcases hform with rfl | ⟨c, rfl⟩
    · exact mapName_idem raw
    · exact mapName_suffixed _ c
  rw [hfix]
  exact resolveAux_id _ [] (resolveAux_nodup _ _) (by simp)

/-- C6 counterexample: the headers `usage_frequency` and `usage-frequency`
differ only in their separator (underscore versus hyphen), yet the first
canonicalizes to `analysis_usage` while the second passes through
unmatched: hyphens are not treated as equivalent separators. -/
theorem claim_C6_counterexample :
    mapName "usage_frequency" = "analysis_usage" ∧
    mapName "usage-frequency" = "usage-frequency" ∧
    "usage-frequency" ≠ "analysis_usage" := by
  decide

/-- C6 (amended): alias matching is case-insensitive and treats spaces as
equivalent to underscores (any two headers with the same normalized form
that hits the alias table receive the same canonical field), but hyphens
are NOT normalized: a hyphenated variant of a known alias passes through
unmatched. -/
theorem claim_C6_theorem :
    (∀ r1 r2 c : String, normCol r1 = normCol r2 →
      variationLookup (normCol r1) = some c → mapName r1 = c ∧ mapName r2 = c) ∧
    mapName "USAGE FREQUENCY" = "analysis_usage" ∧
    mapName "usage frequency" = "analysis_usage" ∧
    mapName "usage_frequency" = "analysis_usage" ∧
    mapName "usage-frequency" = "usage-frequency" := by
  refine ⟨fun r1 r2 c heq hl => ⟨?_, ?_⟩, by decide, by decide, by decide, by decide⟩
  · rw [mapName, hl]
    rfl
  · rw [mapName, ← heq, hl]
    rfl

/-- C6 witness: two case and separator variants of `usage frequency`
canonicalize to the same field. -/
theorem claim_C6_witness :
    mapName "Usage Frequency" = "analysis_usage" ∧
    mapName "usage frequency" = "analysis_usage" :=
  claim_C6_theorem.1 "Usage Frequency" "usage frequency" "analysis_usage" (by decide) (by decide)

/-- C7: a raw header whose normalized form matches no alias passes through
the canonicalizer, and the whole column standardization, verbatim with its
original casing and punctuation. -/
theorem claim_C7_theorem (raw : String) (h : variationLookup (normCol raw) = none) :
    mapName raw = raw ∧ standardizeNames [raw] = [raw] := by
  have hmap : mapName raw = raw := by
    rw [mapName, h]
    rfl
  refine ⟨hmap, ?_⟩
  rw [standardizeNames_eq_resolve]
  simp only [List.map_cons, List.map_nil, hmap, resolveAux]
  rw [resolveOne_not_mem raw [] (by simp)]

/-- C7 witness: the unknown header `Employee Notes` survives the pipeline
unchanged. -/
theorem claim_C7_witness :
    mapName "Employee Notes" = "Employee Notes" ∧
    standardizeNames ["Employee Notes"] = ["Employee Notes"] :=
  claim_C7_theorem "Employee Notes" (by decide)

/-- C8: every free-text response is assigned exactly one of the declared
categories (the classifier is a total function into the category list,
with the fixed catch-all for inputs matching no rule), and for every
non-empty batch the distribution percentages sum to exactly 100. -/
theorem claim_C8_theorem (l : List String) (h : l ≠ []) :
    (∀ s ∈ l, classifySuggestion s ∈ SUGGESTION_CATEGORIES) ∧
    (∀ s : String, (∀ pr ∈ SUGGESTION_PATTERNS, patternMatches pr.2 (pyLower s) = false) →
      classifySuggestion s = "Other suggestions") ∧
    ((categoryPercentages (l.map classifySuggestion)).map Prod.snd).sum = 100 := by
  refine ⟨fun s _ => classify_mem s, fun s hn => ?_, ?_⟩
  · unfold classifySuggestion
    have hfind : SUGGESTION_PATTERNS.find? (fun pr => patternMatches pr.2 (pyLower s)) = none := by
      rw [List.find?_eq_none]
      intro pr hpr
      rw [hn pr hpr]
      simp
    rw [hfind]
    rfl
  · apply percentages_sum
    intro hmap
    exact h (List.map_eq_nil_iff.mp hmap)

/-- C8 witness: a one-element batch is classified into a declared category
and its distribution sums to 100. -/
theorem claim_C8_witness :
    classifySuggestion "costly" ∈ SUGGESTION_CATEGORIES ∧
    ((categoryPercentages (["costly"].map classifySuggestion)).map Prod.snd).sum = 100 := by
  have h8 := claim_C8_theorem (List.cons "costly" List.nil) (by decide)
  exact ⟨h8.1 "costly" (by decide), h8.2.2⟩

/-- C9 counterexample: a missing feedback cell is classified, but it lands
in the `No suggestions` category (its `astype(str)` image `nan` matches the
negative-token pattern), not in the catch-all `Other suggestions` category
as the claim states. -/
theorem claim_C9_counterexample :
    classifyCell none = "No suggestions" ∧ classifyCell none ≠ "Other suggestions" := by
  decide

/-- C9 (amended): a single malformed or missing feedback entry never
aborts the batch: every cell of every batch is classified (one declared
category per row, batch length preserved), but a missing cell is converted
to the string `nan` and routed to `No suggestions`, not to the catch-all. -/
theorem claim_C9_theorem (batch : List (Option String)) :
    (analyzeBatch batch).length = batch.length ∧
    (∀ r ∈ analyzeBatch batch, r ∈ SUGGESTION_CATEGORIES) ∧
    classifyCell none = "No suggestions" := by
  refine ⟨List.length_map _ _, fun r hr => ?_, by decide⟩
  obtain ⟨cell, _, rfl⟩ := List.mem_map.mp hr
  exact classify_mem _

/-- C9 witness: a batch with a missing cell is fully classified; the
missing cell's category is `No suggestions` and is a declared category. -/
theorem claim_C9_witness :
    (analyzeBatch [none, some "add dark mode"]).length = 2 ∧
    "No suggestions" ∈ SUGGESTION_CATEGORIES ∧
    classifyCell none = "No suggestions" :=
  ⟨(claim_C9_theorem [none, some "add dark mode"]).1,
   (claim_C9_theorem [none, some "add dark mode"]).2.1 "No suggestions" (by decide),
   (claim_C9_theorem [none, some "add dark mode"]).2.2⟩

/-- C10 counterexample: a table whose AI-tool column already holds cleaned
display names is NOT changed by the visualization step, so the claim that
the observed table differs for every table containing that column is
false (`ChatGPT` is a fixed point of strip, title-case and alias-merge). -/
theorem claim_C10_counterexample :
    findCol ["analysis_ai_tool", "ai_tool"] ⟨[("analysis_ai_tool", ["ChatGPT"])]⟩
      = some "analysis_ai_tool" ∧
    plotToolPopularityEffect ⟨[("analysis_ai_tool", ["ChatGPT"])]⟩
      = ⟨[("analysis_ai_tool", ["ChatGPT"])]⟩ := by
  decide

/-- C10 (amended): when the AI-tool column is present, the visualization
step overwrites every cell of that column in place with its trimmed,
title-cased, alias-merged display name and leaves all other columns
untouched; the table observed afterwards differs from the input whenever
some cell is not already in cleaned form (for example `chatgpt` becomes
`ChatGPT`), so the step is not read-only. -/
theorem claim_C10_theorem (df : DataFrame) (c : String)
    (h : findCol ["analysis_ai_tool", "ai_tool"] df = some c) :
    getCol (plotToolPopularityEffect df) c = (getCol df c).map (List.map cleanToolCell) ∧
    (∀ m : String, m ≠ c → getCol (plotToolPopularityEffect df) m = getCol df m) ∧
    cleanToolCell "chatgpt" = "ChatGPT" ∧
    plotToolPopularityEffect ⟨[("analysis_ai_tool", ["chatgpt"])]⟩
      ≠ ⟨[("analysis_ai_tool", ["chatgpt"])]⟩ := by
  have heff : plotToolPopularityEffect df = updateCol df c cleanToolCell := by
    unfold plotToolPopularityEffect
    rw [h]
  rw [heff]
  exact ⟨getCol_updateCol_same df c cleanToolCell,
    fun m hm => getCol_updateCol_other df c cleanToolCell m hm, by decide, by decide⟩

/-- C10 witness: on a concrete table the tool column is rewritten cell by
cell while the usage column is untouched. -/
theorem claim_C10_witness :
    getCol (plotToolPopularityEffect
      ⟨[("analysis_ai_tool", ["chatgpt"]), ("analysis_usage", ["daily"])]⟩)
      "analysis_ai_tool" = some ["ChatGPT"] ∧
    getCol (plotToolPopularityEffect
      ⟨[("analysis_ai_tool", ["chatgpt"]), ("analysis_usage", ["daily"])]⟩)
      "analysis_usage" = some ["daily"] := by
  have h := claim_C10_theorem
    ⟨[("analysis_ai_tool", ["chatgpt"]), ("analysis_usage", ["daily"])]⟩
    "analysis_ai_tool" (by decide)
  constructor
  · rw [h.1]
    decide
  · rw [h.2.1 "analysis_usage" (by decide)]
    decide
